import Mathlib

/-!
Verification of the `ipnetwork` IPv4 CIDR library (`src/ipv4.rs`).

Shallow embedding conventions:
* Rust `u32` addresses (`Ipv4Addr` / `u32::from`) are `Nat` values below `2^32`;
  every cast `as u32` becomes `% 2^32` and every cast `as u64` is the identity on
  the embedded `Nat` (wrapping `u64` arithmetic carries an explicit `% 2^64`).
* Rust strings are `List Char`; `str::split` is the explicit `splitOnChar`.
* Fallible Rust functions returning `Result` become `Except IpNetworkError`.
The `common` module (`IpNetworkError`, `cidr_parts`, `parse_prefix`) is not part
of the sources; those three are modelled from the specification and are marked
as such in their doc comments.
-/

/-- Error type of the library.  The `common` module defines it; modelled from the
spec's error taxonomy: `InvalidPrefix`, `InvalidAddr` with a human-readable
description, and a malformed-CIDR-text error for a missing or extra `/`. -/
inductive IpNetworkError where
  | InvalidPrefix : IpNetworkError
  | InvalidAddr : List Char → IpNetworkError
  | InvalidCidrFormat : List Char → IpNetworkError
deriving DecidableEq, Repr

/-- The constant `IPV4_BITS: u8 = 32`. -/
def IPV4_BITS : Nat := 32

/-- The `Ipv4Network` struct: a stored address (`Ipv4Addr`, embedded as a `Nat`
below `2^32`) and a prefix length (`u8`).  The Rust field `prefix` is named
`prefixLen` here. -/
structure Ipv4Network where
  addr : Nat
  prefixLen : Nat
deriving DecidableEq, Repr

/-- The constructor `Ipv4Network::new`: fails with `InvalidPrefix` when `prefix > IPV4_BITS`,
otherwise stores both fields verbatim. -/
def Ipv4Network.new (addr pl : Nat) : Except IpNetworkError Ipv4Network :=
  if pl > IPV4_BITS then .error .InvalidPrefix
  else .ok { addr := addr, prefixLen := pl }

/-- The accessor `Ipv4Network::ip`: returns the stored address unchanged. -/
def Ipv4Network.ip (n : Ipv4Network) : Nat := n.addr

/-- The mask computation `!(0xffffffff as u64 >> prefix) as u32` as a function of
the prefix alone: `u64` complement is subtraction from `2^64 - 1`, the final
`as u32` truncates mod `2^32`. -/
def maskFn (pl : Nat) : Nat :=
  (2 ^ 64 - 1 - (0xffffffff >>> pl)) % 2 ^ 32

/-- The method `Ipv4Network::mask` (its `u32` component; the `Ipv4Addr` component is the
same number). -/
def Ipv4Network.mask (n : Ipv4Network) : Nat := maskFn n.prefixLen

/-- The method `Ipv4Network::network`: `u32::from(self.addr) & mask`. -/
def Ipv4Network.network (n : Ipv4Network) : Nat := n.addr &&& n.mask

/-- The method `Ipv4Network::broadcast`: `u32::from(self.addr) | !mask`; the `u32`
complement of the mask is XOR with all 32 ones. -/
def Ipv4Network.broadcast (n : Ipv4Network) : Nat :=
  n.addr ||| ((2 ^ 32 - 1) ^^^ n.mask)

/-- The method `Ipv4Network::contains`: `(u32::from(ip) & mask) == net`. -/
def Ipv4Network.contains (n : Ipv4Network) (x : Nat) : Bool :=
  (x &&& n.mask) == n.network

/-- Wrapping `u64` exponentiation, mirroring that `(2 as u64).pow(host_bits)`
computes inside the 64-bit width. -/
def u64pow (base : Nat) : Nat → Nat
  | 0 => 1
  | k + 1 => u64pow base k * base % 2 ^ 64

/-- The method `Ipv4Network::size`: `(2 as u64).pow((IPV4_BITS - prefix) as u32)`. -/
def Ipv4Network.size (n : Ipv4Network) : Nat :=
  u64pow 2 (IPV4_BITS - n.prefixLen)

/-- The method `Ipv4Network::nth`: the guarded comparison is in `u64`; the addition
`net + n` is 32-bit and therefore carries `% 2^32`. -/
def Ipv4Network.nth (n : Ipv4Network) (k : Nat) : Option Nat :=
  if k < n.size then some ((n.network + k) % 2 ^ 32) else none

/-- The `Ipv4NetworkIterator` struct: two `u64` fields.  The Rust fields are
`next` and `end`; they are named `curr` and `stop` here (both are Lean
keywords or near-keywords). -/
structure Ipv4NetworkIterator where
  curr : Nat
  stop : Nat
deriving DecidableEq, Repr

/-- The method `Ipv4Network::iter`: starts at the network address, ends at
`start as u64 + self.size()` (a `u64` addition, hence `% 2^64`). -/
def Ipv4Network.iter (n : Ipv4Network) : Ipv4NetworkIterator :=
  { curr := n.network, stop := (n.network + n.size) % 2 ^ 64 }

/-- One call of `Iterator::next` on `Ipv4NetworkIterator`: returns the produced
element (`none` when exhausted) together with the successor state.  The emitted
address is `Ipv4Addr::from(self.next as u32)`, hence `% 2^32`; the increment
`self.next += 1` is `u64` arithmetic, hence `% 2^64`. -/
def Ipv4NetworkIterator.step (it : Ipv4NetworkIterator) :
    Option Nat × Ipv4NetworkIterator :=
  if it.curr < it.stop then
    (some (it.curr % 2 ^ 32), { curr := (it.curr + 1) % 2 ^ 64, stop := it.stop })
  else
    (none, it)

/-- Run the iterator `k` times, collecting the `k` produced `Option` results and
the final state. -/
def runIter : Nat → Ipv4NetworkIterator → List (Option Nat) × Ipv4NetworkIterator
  | 0, it => ([], it)
  | k + 1, it =>
    let s := it.step
    let r := runIter k s.2
    (s.1 :: r.1, r.2)

/-- Rust's `str::split(char)`: splits at every occurrence of the separator;
an empty input yields one empty segment, and adjacent separators yield empty
segments. -/
def splitOnChar (c : Char) : List Char → List (List Char)
  | [] => [[]]
  | x :: xs =>
    if x = c then [] :: splitOnChar c xs
    else
      match splitOnChar c xs with
      | s :: rest => (x :: s) :: rest
      | [] => [[x]]

/-- The optional leading `+` sign accepted by Rust's unsigned integer
parsing. -/
def stripPlus : List Char → List Char
  | '+' :: rest => rest
  | s => s

/-- The numeric value of a digit string (most significant digit first). -/
def digitsVal (t : List Char) : Nat :=
  t.foldl (fun acc c => acc * 10 + (c.toNat - 48)) 0

/-- Rust's `str::parse::<u8>()`: an optional leading `+`, then one or more
decimal digits, value at most 255; anything else (empty segment, other
characters, a `-` sign, overflow) fails. -/
def parseU8 (s : List Char) : Option Nat :=
  let t := stripPlus s
  if t ≠ [] ∧ t.all Char.isDigit then
    if digitsVal t ≤ 255 then some (digitsVal t) else none
  else none

/-- The four-byte buffer `let mut bytes = [0; 4]` with `bytes[i] = v`. -/
def setByte : Nat × Nat × Nat × Nat → Nat → Nat → Nat × Nat × Nat × Nat
  | (_, b, c, d), 0, v => (v, b, c, d)
  | (a, _, c, d), 1, v => (a, v, c, d)
  | (a, b, _, d), 2, v => (a, b, v, d)
  | (a, b, c, _), 3, v => (a, b, c, v)
  | bs, _, _ => bs

/-- The enumerated loop body of `Ipv4Network::parse_addr`: `i >= 4` aborts with
"More than 4 bytes", a failed byte parse aborts with "All bytes not 0-255",
otherwise the byte is stored and the loop continues. -/
def parseLoop (addr : List Char) :
    List (Option Nat) → Nat → Nat × Nat × Nat × Nat →
    Except IpNetworkError (Nat × Nat × Nat × Nat)
  | [], _, bs => .ok bs
  | ob :: rest, i, bs =>
    if i ≥ 4 then
      .error (.InvalidAddr (("More than 4 bytes: ").data ++ addr))
    else
      match ob with
      | none => .error (.InvalidAddr (("All bytes not 0-255: ").data ++ addr))
      | some v => parseLoop addr rest (i + 1) (setByte bs i v)

/-- The method `Ipv4Network::parse_addr`: split on `.`, parse each segment as `u8`, fill a
zero-initialised 4-byte buffer, assemble via `Ipv4Addr::new` /
`u32::from` (most-significant byte first). -/
def parse_addr (addr : List Char) : Except IpNetworkError Nat :=
  match parseLoop addr ((splitOnChar '.' addr).map parseU8) 0 (0, 0, 0, 0) with
  | .error e => .error e
  | .ok (b0, b1, b2, b3) =>
    .ok (b0 * 2 ^ 24 + b1 * 2 ^ 16 + b2 * 2 ^ 8 + b3)

/-- Modelled from the spec: `cidr_parts` lives in the `common` module, which is
absent from the sources.  Per the spec it separates the CIDR text into exactly
an address part and a prefix part at the `/`, failing when no `/` is present or
when more than one segment follows the address. -/
def cidr_parts (s : List Char) : Except IpNetworkError (List Char × List Char) :=
  match splitOnChar '/' s with
  | [a, p] => .ok (a, p)
  | _ => .error (.InvalidCidrFormat (("Malformed CIDR: ").data ++ s))

/-- Modelled from the spec: `parse_prefix` lives in the `common` module, which
is absent from the sources.  Per the spec it parses the prefix part as a
non-negative base-10 integer with no leading sign or whitespace tolerance and
fails with `InvalidPrefix` when it does not parse or exceeds `bits`. -/
def parsePrefixLen (s : List Char) (bits : Nat) : Except IpNetworkError Nat :=
  if s ≠ [] ∧ s.all Char.isDigit then
    if digitsVal s ≤ bits then .ok (digitsVal s) else .error .InvalidPrefix
  else .error .InvalidPrefix

/-- The method `Ipv4Network::from_cidr`: split the CIDR text, parse the address part, parse
the prefix part against `IPV4_BITS`, then construct via `new`; the `match`
chain mirrors the `try!` early returns. -/
def from_cidr (cidr : List Char) : Except IpNetworkError Ipv4Network :=
  match cidr_parts cidr with
  | .error e => .error e
  | .ok (addr_str, prefix_str) =>
    match parse_addr addr_str with
    | .error e => .error e
    | .ok addr =>
      match parsePrefixLen prefix_str IPV4_BITS with
      | .error e => .error e
      | .ok pl => Ipv4Network.new addr pl

/-- Decimal rendering of a number, as Rust's `Display` for integers. -/
def natChars (v : Nat) : List Char := (Nat.repr v).data

/-- The impl `Display for Ipv4Network`: `"{}/{}"` over the `Ipv4Addr` octets and the
prefix, the address in dotted-decimal form. -/
def Ipv4Network.display (n : Ipv4Network) : List Char :=
  natChars (n.addr / 2 ^ 24 % 256) ++ '.' ::
  natChars (n.addr / 2 ^ 16 % 256) ++ '.' ::
  natChars (n.addr / 2 ^ 8 % 256) ++ '.' ::
  natChars (n.addr % 256) ++ '/' ::
  natChars n.prefixLen

/-- Spec-side description of byte assembly for comparison with `parse_addr`
(claim C8): the parsed segment values, zero-filled on the right to four bytes,
assembled most-significant first. -/
def specAssembleBytes (vs : List Nat) : Nat :=
  (vs ++ List.replicate (4 - vs.length) 0).foldl (fun acc b => acc * 256 + b) 0

/-! ### Arithmetic facts about the mask, network, broadcast and size -/

theorem maskFn_eq {p : Nat} (hp : p ≤ 32) : maskFn p = 2 ^ 32 - 2 ^ (32 - p) := by
  have h : ∀ q, q < 33 → maskFn q = 2 ^ 32 - 2 ^ (32 - q) := by decide
  exact h p (by omega)

theorem maskFn_lt (p : Nat) : maskFn p < 2 ^ 32 :=
  Nat.mod_lt _ (by norm_num)

theorem u64pow_two {h : Nat} (hh : h ≤ 32) : u64pow 2 h = 2 ^ h := by
  have k : ∀ q, q < 33 → u64pow 2 q = 2 ^ q := by decide
  exact k h (by omega)

theorem maskFn_testBit {p : Nat} (hp : p ≤ 32) (i : Nat) :
    (maskFn p).testBit i = (decide (32 - p ≤ i) && decide (i < 32)) := by
  rw [maskFn_eq hp]
  have e : 2 ^ 32 - 2 ^ (32 - p) = 2 ^ (32 - p) * (2 ^ p - 1) := by
    rw [Nat.mul_sub_left_distrib, Nat.mul_one, ← Nat.pow_add]
    congr 2
    omega
  rw [e, Nat.testBit_mul_pow_two, Nat.testBit_two_pow_sub_one, Bool.eq_iff_iff]
  simp only [Bool.and_eq_true, decide_eq_true_eq, ge_iff_le]
  omega

theorem land_mask {a p : Nat} (ha : a < 2 ^ 32) (hp : p ≤ 32) :
    a &&& maskFn p = 2 ^ (32 - p) * (a / 2 ^ (32 - p)) := by
  apply Nat.eq_of_testBit_eq
  intro i
  rw [Nat.testBit_and, maskFn_testBit hp i, Nat.testBit_mul_pow_two,
    ← Nat.shiftRight_eq_div_pow, Nat.testBit_shiftRight]
  by_cases h : 32 - p ≤ i
  · have hi : 32 - p + (i - (32 - p)) = i := by omega
    rw [hi]
    by_cases h32 : i < 32
    · simp [h, h32]
    · have hz : a.testBit i = false :=
        Nat.testBit_lt_two_pow
          (lt_of_lt_of_le ha (Nat.pow_le_pow_right (by norm_num) (by omega)))
      simp [h, h32, hz]
  · simp [h]

theorem lor_low (a h : Nat) :
    a ||| (2 ^ h - 1) = 2 ^ h * (a / 2 ^ h) + (2 ^ h - 1) := by
  rw [Nat.mul_add_lt_is_or (Nat.sub_lt (Nat.two_pow_pos h) Nat.one_pos)]
  apply Nat.eq_of_testBit_eq
  intro i
  rw [Nat.testBit_or, Nat.testBit_or, Nat.testBit_mul_pow_two,
    ← Nat.shiftRight_eq_div_pow, Nat.testBit_shiftRight, Nat.testBit_two_pow_sub_one]
  by_cases hih : i < h
  · simp [hih]
  · have hge : i ≥ h := by omega
    have hi : h + (i - h) = i := by omega
    simp [hih, hge, hi]

theorem network_eq {a p : Nat} (ha : a < 2 ^ 32) (hp : p ≤ 32) :
    Ipv4Network.network ⟨a, p⟩ = 2 ^ (32 - p) * (a / 2 ^ (32 - p)) :=
  land_mask ha hp

theorem notMask_eq {p : Nat} (hp : p ≤ 32) :
    (2 ^ 32 - 1) ^^^ maskFn p = 2 ^ (32 - p) - 1 := by
  have h : ∀ q, q < 33 → (2 ^ 32 - 1) ^^^ maskFn q = 2 ^ (32 - q) - 1 := by decide
  exact h p (by omega)

theorem broadcast_eq {a p : Nat} (hp : p ≤ 32) :
    Ipv4Network.broadcast ⟨a, p⟩ =
      2 ^ (32 - p) * (a / 2 ^ (32 - p)) + (2 ^ (32 - p) - 1) := by
  show a ||| ((2 ^ 32 - 1) ^^^ maskFn p) = _
  rw [notMask_eq hp]
  exact lor_low a (32 - p)

theorem size_eq {a p : Nat} (hp : p ≤ 32) :
    Ipv4Network.size ⟨a, p⟩ = 2 ^ (32 - p) := by
  show u64pow 2 (32 - p) = 2 ^ (32 - p)
  exact u64pow_two (by omega)

theorem network_add_size_le {a p : Nat} (ha : a < 2 ^ 32) (hp : p ≤ 32) :
    Ipv4Network.network ⟨a, p⟩ + 2 ^ (32 - p) ≤ 2 ^ 32 := by
  rw [network_eq ha hp]
  have hpq : 2 ^ (32 - p) * 2 ^ p = 2 ^ 32 := by
    rw [← Nat.pow_add]
    congr 1
    omega
  have hq : a / 2 ^ (32 - p) < 2 ^ p := by
    rw [Nat.div_lt_iff_lt_mul (Nat.two_pow_pos _)]
    calc a < 2 ^ 32 := ha
      _ = 2 ^ p * 2 ^ (32 - p) := by rw [Nat.mul_comm] at hpq; omega
  have := Nat.mul_le_mul_left (2 ^ (32 - p)) (show a / 2 ^ (32 - p) + 1 ≤ 2 ^ p from hq)
  rw [Nat.mul_add, Nat.mul_one] at this
  omega

theorem network_lt {a p : Nat} (ha : a < 2 ^ 32) :
    Ipv4Network.network ⟨a, p⟩ < 2 ^ 32 :=
  lt_of_le_of_lt Nat.and_le_left ha

theorem broadcast_lt {a p : Nat} (ha : a < 2 ^ 32) (hp : p ≤ 32) :
    Ipv4Network.broadcast ⟨a, p⟩ < 2 ^ 32 := by
  rw [broadcast_eq hp]
  have h1 := network_add_size_le ha hp
  rw [network_eq ha hp] at h1
  have h2 : (0 : Nat) < 2 ^ (32 - p) := Nat.two_pow_pos _
  omega

theorem contains_iff_div {a p x : Nat} (ha : a < 2 ^ 32) (hx : x < 2 ^ 32)
    (hp : p ≤ 32) :
    Ipv4Network.contains ⟨a, p⟩ x = true ↔
      x / 2 ^ (32 - p) = a / 2 ^ (32 - p) := by
  show ((x &&& maskFn p) == Ipv4Network.network ⟨a, p⟩) = true ↔ _
  rw [beq_iff_eq, land_mask hx hp, network_eq ha hp]
  constructor
  · intro h
    exact Nat.eq_of_mul_eq_mul_left (Nat.two_pow_pos _) h
  · intro h
    rw [h]

theorem contains_network {a p : Nat} (ha : a < 2 ^ 32) (hp : p ≤ 32) :
    Ipv4Network.contains ⟨a, p⟩ (Ipv4Network.network ⟨a, p⟩) = true := by
  rw [contains_iff_div ha (network_lt ha) hp, network_eq ha hp]
  exact Nat.mul_div_cancel_left _ (Nat.two_pow_pos _)

theorem contains_broadcast {a p : Nat} (ha : a < 2 ^ 32) (hp : p ≤ 32) :
    Ipv4Network.contains ⟨a, p⟩ (Ipv4Network.broadcast ⟨a, p⟩) = true := by
  rw [contains_iff_div ha (broadcast_lt ha hp) hp, broadcast_eq hp,
    Nat.mul_add_div (Nat.two_pow_pos _),
    Nat.div_eq_of_lt (Nat.sub_lt (Nat.two_pow_pos _) Nat.one_pos), Nat.add_zero]

theorem contains_bounds {a p x : Nat} (ha : a < 2 ^ 32) (hx : x < 2 ^ 32)
    (hp : p ≤ 32) (hc : Ipv4Network.contains ⟨a, p⟩ x = true) :
    Ipv4Network.network ⟨a, p⟩ ≤ x ∧ x ≤ Ipv4Network.broadcast ⟨a, p⟩ := by
  have hdiv := (contains_iff_div ha hx hp).mp hc
  rw [network_eq ha hp, broadcast_eq hp, ← hdiv]
  constructor
  · rw [Nat.mul_comm]
    exact Nat.div_mul_le_self x _
  · have hm : x % 2 ^ (32 - p) < 2 ^ (32 - p) := Nat.mod_lt _ (Nat.two_pow_pos _)
    calc x = 2 ^ (32 - p) * (x / 2 ^ (32 - p)) + x % 2 ^ (32 - p) :=
          (Nat.div_add_mod x (2 ^ (32 - p))).symm
      _ ≤ 2 ^ (32 - p) * (x / 2 ^ (32 - p)) + (2 ^ (32 - p) - 1) :=
          Nat.add_le_add_left (Nat.le_sub_one_of_lt hm) _

theorem contains_iff_testBit {a p x : Nat} (ha : a < 2 ^ 32) (hx : x < 2 ^ 32)
    (hp : p ≤ 32) :
    Ipv4Network.contains ⟨a, p⟩ x = true ↔
      ∀ i, 32 - p ≤ i → x.testBit i = a.testBit i := by
  show ((x &&& maskFn p) == Ipv4Network.network ⟨a, p⟩) = true ↔ _
  rw [beq_iff_eq]
  show x &&& maskFn p = a &&& maskFn p ↔ _
  constructor
  · intro h i hi
    by_cases h32 : i < 32
    · have h' := congrArg (fun t => t.testBit i) h
      simp only [Nat.testBit_and, maskFn_testBit hp i] at h'
      simpa [hi, h32] using h'
    · rw [Nat.testBit_lt_two_pow
          (lt_of_lt_of_le hx (Nat.pow_le_pow_right (by norm_num) (by omega))),
        Nat.testBit_lt_two_pow
          (lt_of_lt_of_le ha (Nat.pow_le_pow_right (by norm_num) (by omega)))]
  · intro h
    apply Nat.eq_of_testBit_eq
    intro i
    rw [Nat.testBit_and, Nat.testBit_and, maskFn_testBit hp i]
    by_cases hi : 32 - p ≤ i
    · rw [h i hi]
    · simp [hi]

/-! ### Iterator stepping lemmas -/

theorem runIter_full (k : Nat) : ∀ c, c + k ≤ 2 ^ 32 →
    runIter k ⟨c, c + k⟩ =
      ((List.range k).map (fun i => some (c + i)), ⟨c + k, c + k⟩) := by
  induction k with
  | zero => intro c h; simp [runIter]
  | succ k ih =>
    intro c h
    have hstep : Ipv4NetworkIterator.step ⟨c, c + (k + 1)⟩ =
        (some c, ⟨c + 1, c + (k + 1)⟩) := by
      have h1 : c < c + (k + 1) := by omega
      simp [Ipv4NetworkIterator.step, h1, Nat.mod_eq_of_lt]
      omega
    have ih' := ih (c + 1) (by omega)
    have he : c + 1 + k = c + (k + 1) := by omega
    rw [he] at ih'
    have hlist : (List.range (k + 1)).map (fun i => some (c + i)) =
        some c :: (List.range k).map (fun i => some (c + 1 + i)) := by
      rw [List.range_succ_eq_map, List.map_cons, List.map_map]
      congr 1
      apply List.map_congr_left
      intro i _
      show some (c + (i + 1)) = some (c + 1 + i)
      congr 1
      omega
    simp only [runIter, hstep, ih', hlist]

theorem runIter_exhausted (j e : Nat) :
    runIter j ⟨e, e⟩ = (List.replicate j none, ⟨e, e⟩) := by
  induction j with
  | zero => simp [runIter]
  | succ j ih =>
    have hstep : Ipv4NetworkIterator.step ⟨e, e⟩ = (none, ⟨e, e⟩) := by
      simp [Ipv4NetworkIterator.step]
    simp [runIter, hstep, ih, List.replicate_succ]

theorem runIter_add (k j : Nat) : ∀ it, runIter (k + j) it =
    ((runIter k it).1 ++ (runIter j (runIter k it).2).1,
      (runIter j (runIter k it).2).2) := by
  induction k with
  | zero => intro it; simp [runIter]
  | succ k ih =>
    intro it
    have he : k + 1 + j = (k + j) + 1 := by omega
    rw [he]
    simp only [runIter, ih]
    simp

/-! ### Claim theorems -/

/-- C1: for every validly constructed network (prefix ≤ 32), the iterator starts
with cursor at the network address and exclusive end exactly `start + size` (the
wider 64-bit cursor/end pair never wraps), produces exactly `size` addresses in
increasing order — the `i`-th produced address is `network + i` — beginning at
the network address and ending at the broadcast address, and every subsequent
call keeps producing `none`; at prefix 0 this enumerates all `2^32` addresses
without wrapping the 32-bit width. -/
theorem c1_iterator (a p : Nat) (ha : a < 2 ^ 32) (hp : p ≤ 32) :
    Ipv4Network.iter ⟨a, p⟩ =
      ⟨Ipv4Network.network ⟨a, p⟩,
        Ipv4Network.network ⟨a, p⟩ + Ipv4Network.size ⟨a, p⟩⟩
    ∧ (runIter (Ipv4Network.size ⟨a, p⟩) (Ipv4Network.iter ⟨a, p⟩)).1 =
        (List.range (Ipv4Network.size ⟨a, p⟩)).map
          (fun i => some (Ipv4Network.network ⟨a, p⟩ + i))
    ∧ ((runIter (Ipv4Network.size ⟨a, p⟩) (Ipv4Network.iter ⟨a, p⟩)).1).head? =
        some (some (Ipv4Network.network ⟨a, p⟩))
    ∧ ((runIter (Ipv4Network.size ⟨a, p⟩) (Ipv4Network.iter ⟨a, p⟩)).1).getLast? =
        some (some (Ipv4Network.broadcast ⟨a, p⟩))
    ∧ (∀ j, (runIter (Ipv4Network.size ⟨a, p⟩ + j) (Ipv4Network.iter ⟨a, p⟩)).1 =
        (List.range (Ipv4Network.size ⟨a, p⟩)).map
          (fun i => some (Ipv4Network.network ⟨a, p⟩ + i))
          ++ List.replicate j none) := by
  have hS : Ipv4Network.size ⟨a, p⟩ = 2 ^ (32 - p) := size_eq hp
  have hNS : Ipv4Network.network ⟨a, p⟩ + Ipv4Network.size ⟨a, p⟩ ≤ 2 ^ 32 := by
    rw [hS]
    exact network_add_size_le ha hp
  have hiter : Ipv4Network.iter ⟨a, p⟩ =
      ⟨Ipv4Network.network ⟨a, p⟩,
        Ipv4Network.network ⟨a, p⟩ + Ipv4Network.size ⟨a, p⟩⟩ := by
    show (⟨Ipv4Network.network ⟨a, p⟩,
      (Ipv4Network.network ⟨a, p⟩ + Ipv4Network.size ⟨a, p⟩) % 2 ^ 64⟩ :
        Ipv4NetworkIterator) = _
    congr 1
    exact Nat.mod_eq_of_lt (lt_of_le_of_lt hNS (by norm_num))
  have hrun := runIter_full (Ipv4Network.size ⟨a, p⟩)
    (Ipv4Network.network ⟨a, p⟩) hNS
  have hpos : 0 < Ipv4Network.size ⟨a, p⟩ := by
    rw [hS]
    exact Nat.two_pow_pos _
  obtain ⟨S', hS'⟩ : ∃ S', Ipv4Network.size ⟨a, p⟩ = S' + 1 :=
    ⟨Ipv4Network.size ⟨a, p⟩ - 1, by omega⟩
  have hbr : Ipv4Network.broadcast ⟨a, p⟩ = Ipv4Network.network ⟨a, p⟩ + S' := by
    rw [broadcast_eq hp, network_eq ha hp]
    have : 2 ^ (32 - p) = S' + 1 := by rw [← hS, hS']
    omega
  refine ⟨hiter, ?_, ?_, ?_, ?_⟩
  · rw [hiter, hrun]
  · rw [hiter, hrun, hS', List.range_succ_eq_map]
    simp
  · rw [hiter, hrun, hbr]
    conv in List.range _ => rw [hS']
    rw [List.range_succ, List.map_append]
    simp [List.getLast?_concat]
  · intro j
    rw [hiter, runIter_add, hrun]
    simp only [runIter_exhausted]

/-- Witness for C1 at the network 192.168.122.0/30 of the Rust test suite. -/
theorem c1_iterator_witness :
    ((3232266752 : Nat) < 2 ^ 32 ∧ (30 : Nat) ≤ 32)
    ∧ (runIter (Ipv4Network.size ⟨3232266752, 30⟩)
        (Ipv4Network.iter ⟨3232266752, 30⟩)).1 =
        (List.range (Ipv4Network.size ⟨3232266752, 30⟩)).map
          (fun i => some (Ipv4Network.network ⟨3232266752, 30⟩ + i))
    ∧ ((runIter (Ipv4Network.size ⟨3232266752, 30⟩)
        (Ipv4Network.iter ⟨3232266752, 30⟩)).1).getLast? =
        some (some (Ipv4Network.broadcast ⟨3232266752, 30⟩))
    ∧ (runIter (Ipv4Network.size ⟨3232266752, 30⟩ + 2)
        (Ipv4Network.iter ⟨3232266752, 30⟩)).1 =
        (List.range (Ipv4Network.size ⟨3232266752, 30⟩)).map
          (fun i => some (Ipv4Network.network ⟨3232266752, 30⟩ + i))
          ++ List.replicate 2 none :=
  ⟨⟨by decide, by decide⟩,
    (c1_iterator 3232266752 30 (by decide) (by decide)).2.1,
    (c1_iterator 3232266752 30 (by decide) (by decide)).2.2.2.1,
    (c1_iterator 3232266752 30 (by decide) (by decide)).2.2.2.2 2⟩

/-- C2: for a validly constructed network, `nth k` is `some (network + k)`
whenever `k < size`, and in that case the 32-bit addition does not overflow
(`network + k < 2^32`, so the `% 2^32` of the embedding is the identity);
when `k ≥ size` it is `none`. -/
theorem c2_nth (a p k : Nat) (ha : a < 2 ^ 32) (hp : p ≤ 32) :
    (k < Ipv4Network.size ⟨a, p⟩ →
      Ipv4Network.nth ⟨a, p⟩ k = some (Ipv4Network.network ⟨a, p⟩ + k)
      ∧ Ipv4Network.network ⟨a, p⟩ + k < 2 ^ 32)
    ∧ (Ipv4Network.size ⟨a, p⟩ ≤ k → Ipv4Network.nth ⟨a, p⟩ k = none) := by
  constructor
  · intro hk
    have hlt : Ipv4Network.network ⟨a, p⟩ + k < 2 ^ 32 := by
      have h1 := network_add_size_le ha hp
      have h2 := size_eq (a := a) hp
      omega
    refine ⟨?_, hlt⟩
    unfold Ipv4Network.nth
    rw [if_pos hk, Nat.mod_eq_of_lt hlt]
  · intro hk
    unfold Ipv4Network.nth
    rw [if_neg (by omega)]

/-- Witness for C2 at 192.168.0.0/24 with offsets 15 and 256. -/
theorem c2_nth_witness :
    ((3232235520 : Nat) < 2 ^ 32 ∧ (24 : Nat) ≤ 32)
    ∧ Ipv4Network.nth ⟨3232235520, 24⟩ 15 =
        some (Ipv4Network.network ⟨3232235520, 24⟩ + 15)
    ∧ Ipv4Network.nth ⟨3232235520, 24⟩ 256 = none :=
  ⟨⟨by decide, by decide⟩,
    ((c2_nth 3232235520 24 15 (by decide) (by decide)).1 (by decide)).1,
    (c2_nth 3232235520 24 256 (by decide) (by decide)).2 (by decide)⟩

/-- C3: for prefix `p ≤ 32` the mask has its top `p` bits set (bit `i` is set
exactly when `32 - p ≤ i < 32`), is a well-defined 32-bit value equal to
`2^32 - 2^(32-p)` at both boundary prefixes and in between, and prefix 29
yields 4294967288. -/
theorem c3_mask (a p : Nat) (hp : p ≤ 32) :
    (∀ i, (Ipv4Network.mask ⟨a, p⟩).testBit i =
      (decide (32 - p ≤ i) && decide (i < 32)))
    ∧ Ipv4Network.mask ⟨a, p⟩ = 2 ^ 32 - 2 ^ (32 - p)
    ∧ Ipv4Network.mask ⟨a, p⟩ < 2 ^ 32
    ∧ Ipv4Network.mask ⟨a, 29⟩ = 4294967288 :=
  ⟨fun i => maskFn_testBit hp i, maskFn_eq hp, maskFn_lt p,
    (by decide : maskFn 29 = 4294967288)⟩

/-- Witness for C3 at the boundary prefix 0. -/
theorem c3_mask_witness :
    (0 : Nat) ≤ 32
    ∧ (Ipv4Network.mask ⟨7, 0⟩).testBit 31 =
        (decide (32 - 0 ≤ 31) && decide (31 < 32))
    ∧ Ipv4Network.mask ⟨7, 0⟩ = 2 ^ 32 - 2 ^ (32 - 0)
    ∧ Ipv4Network.mask ⟨7, 29⟩ = 4294967288 :=
  ⟨by decide, (c3_mask 7 0 (by decide)).1 31, (c3_mask 7 0 (by decide)).2.1,
    (c3_mask 7 0 (by decide)).2.2.2⟩

/-- C4: `network` is the stored address AND the mask and `broadcast` is the
stored address OR the complement of the mask; both lie in the network's range,
and they are respectively the lowest and the highest address of the range;
for 10.10.1.97/23 they are 10.10.0.0 and 10.10.1.255. -/
theorem c4_network_broadcast (a p : Nat) (ha : a < 2 ^ 32) (hp : p ≤ 32) :
    Ipv4Network.network ⟨a, p⟩ = (a &&& Ipv4Network.mask ⟨a, p⟩)
    ∧ Ipv4Network.broadcast ⟨a, p⟩ =
        (a ||| ((2 ^ 32 - 1) ^^^ Ipv4Network.mask ⟨a, p⟩))
    ∧ Ipv4Network.contains ⟨a, p⟩ (Ipv4Network.network ⟨a, p⟩) = true
    ∧ Ipv4Network.contains ⟨a, p⟩ (Ipv4Network.broadcast ⟨a, p⟩) = true
    ∧ (∀ x, x < 2 ^ 32 → Ipv4Network.contains ⟨a, p⟩ x = true →
        Ipv4Network.network ⟨a, p⟩ ≤ x ∧ x ≤ Ipv4Network.broadcast ⟨a, p⟩)
    ∧ Ipv4Network.network ⟨168427873, 23⟩ = 168427520
    ∧ Ipv4Network.broadcast ⟨168427873, 23⟩ = 168428031 :=
  ⟨rfl, rfl, contains_network ha hp, contains_broadcast ha hp,
    fun x hx hc => contains_bounds ha hx hp hc, by decide, by decide⟩

/-- Witness for C4 at 10.10.1.97/23, bounding the contained address
10.10.1.0 = 168427776. -/
theorem c4_network_broadcast_witness :
    ((168427873 : Nat) < 2 ^ 32 ∧ (23 : Nat) ≤ 32)
    ∧ Ipv4Network.contains ⟨168427873, 23⟩
        (Ipv4Network.network ⟨168427873, 23⟩) = true
    ∧ (Ipv4Network.network ⟨168427873, 23⟩ ≤ 168427776
        ∧ 168427776 ≤ Ipv4Network.broadcast ⟨168427873, 23⟩)
    ∧ Ipv4Network.network ⟨168427873, 23⟩ = 168427520
    ∧ Ipv4Network.broadcast ⟨168427873, 23⟩ = 168428031 :=
  ⟨⟨by decide, by decide⟩,
    (c4_network_broadcast 168427873 23 (by decide) (by decide)).2.2.1,
    (c4_network_broadcast 168427873 23 (by decide) (by decide)).2.2.2.2.1
      168427776 (by decide) (by decide),
    (c4_network_broadcast 168427873 23 (by decide) (by decide)).2.2.2.2.2.1,
    (c4_network_broadcast 168427873 23 (by decide) (by decide)).2.2.2.2.2.2⟩

/-- C5: `contains x` holds iff `x AND mask` equals `stored AND mask`, i.e. iff
every bit from position `32 - p` up agrees between `x` and the stored address
(the top `p` bits of the 32-bit value); the two spec examples hold. -/
theorem c5_contains (a p x : Nat) (ha : a < 2 ^ 32) (hx : x < 2 ^ 32)
    (hp : p ≤ 32) :
    (Ipv4Network.contains ⟨a, p⟩ x = true ↔
      (x &&& Ipv4Network.mask ⟨a, p⟩) = (a &&& Ipv4Network.mask ⟨a, p⟩))
    ∧ (Ipv4Network.contains ⟨a, p⟩ x = true ↔
      ∀ i, 32 - p ≤ i → x.testBit i = a.testBit i)
    ∧ Ipv4Network.contains ⟨1249764096, 25⟩ 1249764100 = true
    ∧ Ipv4Network.contains ⟨167772210, 24⟩ 167837697 = false := by
  refine ⟨?_, contains_iff_testBit ha hx hp, by decide, by decide⟩
  show ((x &&& maskFn p) == Ipv4Network.network ⟨a, p⟩) = true ↔ _
  rw [beq_iff_eq]
  exact Iff.rfl

/-- Witness for C5 at 74.125.227.0/25 and the candidate 74.125.227.4. -/
theorem c5_contains_witness :
    ((1249764096 : Nat) < 2 ^ 32 ∧ (1249764100 : Nat) < 2 ^ 32 ∧ (25 : Nat) ≤ 32)
    ∧ (Ipv4Network.contains ⟨1249764096, 25⟩ 1249764100 = true ↔
        ∀ i, 32 - 25 ≤ i →
          Nat.testBit 1249764100 i = Nat.testBit 1249764096 i) :=
  ⟨⟨by decide, by decide, by decide⟩,
    (c5_contains 1249764096 25 1249764100 (by decide) (by decide) (by decide)).2.1⟩

/-- C6: `size` equals exactly `2^(32-p)`, fits the 64-bit result type, and at
prefix 0 is `2^32 = 4294967296` with no overflow. -/
theorem c6_size (a p : Nat) (hp : p ≤ 32) :
    Ipv4Network.size ⟨a, p⟩ = 2 ^ (32 - p)
    ∧ Ipv4Network.size ⟨a, p⟩ < 2 ^ 64
    ∧ Ipv4Network.size ⟨a, 0⟩ = 4294967296 := by
  refine ⟨size_eq hp, ?_, (by decide : u64pow 2 32 = 4294967296)⟩
  calc Ipv4Network.size ⟨a, p⟩ = 2 ^ (32 - p) := size_eq hp
    _ ≤ 2 ^ 32 := Nat.pow_le_pow_right (by norm_num) (by omega)
    _ < 2 ^ 64 := by norm_num

/-- Witness for C6 at prefix 0 (the maximal range). -/
theorem c6_size_witness :
    (0 : Nat) ≤ 32
    ∧ Ipv4Network.size ⟨0, 0⟩ = 2 ^ (32 - 0)
    ∧ Ipv4Network.size ⟨0, 0⟩ < 2 ^ 64
    ∧ Ipv4Network.size ⟨0, 0⟩ = 4294967296 :=
  ⟨by decide, (c6_size 0 0 (by decide)).1, (c6_size 0 0 (by decide)).2.1,
    (c6_size 0 0 (by decide)).2.2⟩

/-- C7: `new` fails with `InvalidPrefix` exactly when the prefix exceeds 32;
otherwise it stores both fields verbatim, so `ip` returns the given address
(host bits preserved) and the prefix accessor returns the given prefix. -/
theorem c7_new (a p : Nat) :
    (Ipv4Network.new a p = .error .InvalidPrefix ↔ 32 < p)
    ∧ (p ≤ 32 → Ipv4Network.new a p = .ok ⟨a, p⟩)
    ∧ (∀ n, Ipv4Network.new a p = .ok n → n.ip = a ∧ n.prefixLen = p) := by
  have hb : (IPV4_BITS : Nat) = 32 := rfl
  unfold Ipv4Network.new
  rw [hb]
  by_cases h : p > 32
  · rw [if_pos h]
    exact ⟨⟨fun _ => h, fun _ => rfl⟩, fun hp => absurd h (by omega),
      fun n hn => Except.noConfusion hn⟩
  · rw [if_neg h]
    refine ⟨⟨fun he => Except.noConfusion he, fun hgt => absurd hgt h⟩,
      fun _ => rfl, fun n hn => ?_⟩
    injection hn with h2
    rw [← h2]
    exact ⟨rfl, rfl⟩

/-- Witness for C7: 10.1.1.1/24 is stored verbatim, and prefix 33 is
rejected. -/
theorem c7_new_witness :
    Ipv4Network.new 167837953 24 = .ok ⟨167837953, 24⟩
    ∧ Ipv4Network.new 0 33 = .error .InvalidPrefix :=
  ⟨(c7_new 167837953 24).2.1 (by decide), (c7_new 0 33).1.mpr (by decide)⟩

/-! ### Facts about splitting and byte parsing -/

theorem splitOnChar_ne_nil (c : Char) (s : List Char) : splitOnChar c s ≠ [] := by
  induction s with
  | nil => simp [splitOnChar]
  | cons x xs ih =>
    simp only [splitOnChar]
    by_cases h : x = c
    · simp [h]
    · rw [if_neg h]
      cases hm : splitOnChar c xs with
      | nil => simp
      | cons t rest => simp

theorem splitOnChar_no {c : Char} {s : List Char} (h : c ∉ s) :
    splitOnChar c s = [s] := by
  induction s with
  | nil => rfl
  | cons x xs ih =>
    have hx : ¬ x = c := fun he => h (he ▸ List.mem_cons_self x xs)
    have hxs : c ∉ xs := fun hm => h (List.mem_cons_of_mem _ hm)
    simp only [splitOnChar, if_neg hx, ih hxs]

theorem splitOnChar_append {c : Char} {X : List Char} (Y : List Char)
    (h : c ∉ X) : splitOnChar c (X ++ c :: Y) = X :: splitOnChar c Y := by
  induction X with
  | nil => simp [splitOnChar]
  | cons x xs ih =>
    have hx : ¬ x = c := fun he => h (he ▸ List.mem_cons_self x xs)
    have hxs : c ∉ xs := fun hm => h (List.mem_cons_of_mem _ hm)
    simp only [List.cons_append, List.append_eq, splitOnChar, if_neg hx, ih hxs]

theorem parseU8_le {s : List Char} {v : Nat} (h : parseU8 s = some v) :
    v ≤ 255 := by
  unfold parseU8 at h
  by_cases h1 : stripPlus s ≠ [] ∧ (stripPlus s).all Char.isDigit
  · rw [if_pos h1] at h
    by_cases h2 : digitsVal (stripPlus s) ≤ 255
    · rw [if_pos h2] at h
      injection h with h3
      omega
    · rw [if_neg h2] at h
      exact absurd h (by simp)
  · rw [if_neg h1] at h
    exact absurd h (by simp)

theorem parsePrefixLen_le {s : List Char} {bits v : Nat}
    (h : parsePrefixLen s bits = .ok v) : v ≤ bits := by
  unfold parsePrefixLen at h
  by_cases h1 : s ≠ [] ∧ s.all Char.isDigit
  · rw [if_pos h1] at h
    by_cases h2 : digitsVal s ≤ bits
    · rw [if_pos h2] at h
      injection h with h3
      omega
    · rw [if_neg h2] at h
      exact absurd h (by simp)
  · rw [if_neg h1] at h
    exact absurd h (by simp)

/-- The four bytes of the parse buffer are all at most 255. -/
def bytesLe (bs : Nat × Nat × Nat × Nat) : Prop :=
  bs.1 ≤ 255 ∧ bs.2.1 ≤ 255 ∧ bs.2.2.1 ≤ 255 ∧ bs.2.2.2 ≤ 255

theorem setByte_le {bs : Nat × Nat × Nat × Nat} {i v : Nat} (hb : bytesLe bs)
    (hv : v ≤ 255) : bytesLe (setByte bs i v) := by
  obtain ⟨b0, b1, b2, b3⟩ := bs
  obtain ⟨h0, h1, h2, h3⟩ := hb
  match i with
  | 0 => exact ⟨hv, h1, h2, h3⟩
  | 1 => exact ⟨h0, hv, h2, h3⟩
  | 2 => exact ⟨h0, h1, hv, h3⟩
  | 3 => exact ⟨h0, h1, h2, hv⟩
  | n + 4 => exact ⟨h0, h1, h2, h3⟩

theorem parseLoop_ok_le (addr : List Char) :
    ∀ (ps : List (Option Nat)) (i : Nat) (bs out : Nat × Nat × Nat × Nat),
      (∀ v, some v ∈ ps → v ≤ 255) → bytesLe bs →
      parseLoop addr ps i bs = .ok out → bytesLe out := by
  intro ps
  induction ps with
  | nil =>
    intro i bs out hv hb h
    injection h with h2
    rw [← h2]
    exact hb
  | cons ob rest ih =>
    intro i bs out hv hb h
    unfold parseLoop at h
    by_cases hi : i ≥ 4
    · rw [if_pos hi] at h
      exact absurd h (by simp)
    · rw [if_neg hi] at h
      cases ob with
      | none => exact absurd h (by simp)
      | some v =>
        exact ih (i + 1) (setByte bs i v) out
          (fun w hw => hv w (List.mem_cons_of_mem _ hw))
          (setByte_le hb (hv v (List.mem_cons_self _ _))) h

theorem parse_addr_lt {s : List Char} {a : Nat} (h : parse_addr s = .ok a) :
    a < 2 ^ 32 := by
  unfold parse_addr at h
  cases hm : parseLoop s ((splitOnChar '.' s).map parseU8) 0 (0, 0, 0, 0) with
  | error e =>
    rw [hm] at h
    exact absurd h (by simp)
  | ok bs =>
    obtain ⟨b0, b1, b2, b3⟩ := bs
    rw [hm] at h
    have hle : bytesLe (b0, b1, b2, b3) := by
      refine parseLoop_ok_le s _ 0 (0, 0, 0, 0) (b0, b1, b2, b3) ?_
        ⟨by decide, by decide, by decide, by decide⟩ hm
      intro v hv
      obtain ⟨t, _, ht⟩ := List.mem_map.mp hv
      exact parseU8_le ht
    obtain ⟨l0, l1, l2, l3⟩ := hle
    injection h with h2
    simp only at l0 l1 l2 l3
    omega

theorem parseLoop_err_overflow (addr : List Char) :
    ∀ (ps : List (Option Nat)) (i : Nat) (bs : Nat × Nat × Nat × Nat),
      i ≤ 4 → 4 < i + ps.length →
      ∃ m, parseLoop addr ps i bs = .error (.InvalidAddr m) := by
  intro ps
  induction ps with
  | nil =>
    intro i bs h1 h2
    rw [List.length_nil] at h2
    omega
  | cons ob rest ih =>
    intro i bs h1 h2
    rw [List.length_cons] at h2
    unfold parseLoop
    by_cases hi : i ≥ 4
    · rw [if_pos hi]
      exact ⟨_, rfl⟩
    · rw [if_neg hi]
      cases ob with
      | none => exact ⟨_, rfl⟩
      | some v => exact ih (i + 1) (setByte bs i v) (by omega) (by omega)

theorem parseLoop_err_none (addr : List Char) :
    ∀ (ps : List (Option Nat)) (i : Nat) (bs : Nat × Nat × Nat × Nat),
      none ∈ ps → ∃ m, parseLoop addr ps i bs = .error (.InvalidAddr m) := by
  intro ps
  induction ps with
  | nil =>
    intro i bs h
    exact absurd h (by simp)
  | cons ob rest ih =>
    intro i bs h
    unfold parseLoop
    by_cases hi : i ≥ 4
    · rw [if_pos hi]
      exact ⟨_, rfl⟩
    · rw [if_neg hi]
      cases ob with
      | none => exact ⟨_, rfl⟩
      | some v =>
        refine ih (i + 1) (setByte bs i v) ?_
        cases List.mem_cons.mp h with
        | inl hh => exact Option.noConfusion hh
        | inr hh => exact hh

deriving instance DecidableEq for Except

set_option maxRecDepth 8192 in
/-- Decimal rendering of a byte parses back to the same value and contains no
separator characters. -/
theorem natChars_byte : ∀ v, v < 256 →
    (parseU8 (natChars v) = some v ∧ '.' ∉ natChars v ∧ '/' ∉ natChars v) := by
  decide

set_option maxRecDepth 8192 in
/-- Decimal rendering of a valid prefix parses back to the same value. -/
theorem natChars_prefixLen : ∀ q, q < 33 →
    (parsePrefixLen (natChars q) 32 = .ok q ∧ '/' ∉ natChars q) := by
  decide

theorem parse_addr_of_split {s t0 t1 t2 t3 : List Char} {v0 v1 v2 v3 : Nat}
    (hs : splitOnChar '.' s = [t0, t1, t2, t3])
    (h0 : parseU8 t0 = some v0) (h1 : parseU8 t1 = some v1)
    (h2 : parseU8 t2 = some v2) (h3 : parseU8 t3 = some v3) :
    parse_addr s = .ok (v0 * 2 ^ 24 + v1 * 2 ^ 16 + v2 * 2 ^ 8 + v3) := by
  unfold parse_addr
  rw [hs]
  simp only [List.map_cons, List.map_nil, h0, h1, h2, h3]
  rfl

theorem display_dotted_parse {a : Nat} (ha : a < 2 ^ 32) :
    parse_addr (natChars (a / 2 ^ 24 % 256) ++ '.' ::
      natChars (a / 2 ^ 16 % 256) ++ '.' ::
      natChars (a / 2 ^ 8 % 256) ++ '.' :: natChars (a % 256)) = .ok a := by
  obtain ⟨p0, d0, s0⟩ := natChars_byte _ (Nat.mod_lt (a / 2 ^ 24) (by norm_num))
  obtain ⟨p1, d1, s1⟩ := natChars_byte _ (Nat.mod_lt (a / 2 ^ 16) (by norm_num))
  obtain ⟨p2, d2, s2⟩ := natChars_byte _ (Nat.mod_lt (a / 2 ^ 8) (by norm_num))
  obtain ⟨p3, d3, s3⟩ := natChars_byte _ (Nat.mod_lt a (show 0 < 256 by norm_num))
  have hsplit : splitOnChar '.' (natChars (a / 2 ^ 24 % 256) ++ '.' ::
      natChars (a / 2 ^ 16 % 256) ++ '.' ::
      natChars (a / 2 ^ 8 % 256) ++ '.' :: natChars (a % 256)) =
      [natChars (a / 2 ^ 24 % 256), natChars (a / 2 ^ 16 % 256),
        natChars (a / 2 ^ 8 % 256), natChars (a % 256)] := by
    simp only [List.append_assoc, List.cons_append]
    rw [splitOnChar_append _ d0, splitOnChar_append _ d1, splitOnChar_append _ d2,
      splitOnChar_no d3]
  rw [parse_addr_of_split hsplit p0 p1 p2 p3]
  congr 1
  omega

theorem new_ok {a pl : Nat} {n : Ipv4Network}
    (h : Ipv4Network.new a pl = .ok n) : n = ⟨a, pl⟩ ∧ pl ≤ 32 := by
  unfold Ipv4Network.new at h
  by_cases hp : pl > IPV4_BITS
  · rw [if_pos hp] at h
    exact absurd h (by simp)
  · rw [if_neg hp] at h
    injection h with h2
    refine ⟨h2.symm, ?_⟩
    have hb : (IPV4_BITS : Nat) = 32 := rfl
    omega

theorem from_cidr_ok {s : List Char} {n : Ipv4Network}
    (h : from_cidr s = .ok n) : n.addr < 2 ^ 32 ∧ n.prefixLen ≤ 32 := by
  unfold from_cidr at h
  cases hc : cidr_parts s with
  | error e =>
    simp only [hc] at h
    exact Except.noConfusion h
  | ok parts =>
    obtain ⟨addr_str, prefix_str⟩ := parts
    simp only [hc] at h
    cases hA : parse_addr addr_str with
    | error e =>
      simp only [hA] at h
      exact Except.noConfusion h
    | ok addr =>
      simp only [hA] at h
      cases hP : parsePrefixLen prefix_str IPV4_BITS with
      | error e =>
        simp only [hP] at h
        exact Except.noConfusion h
      | ok pl =>
        simp only [hP] at h
        obtain ⟨hn, hle⟩ := new_ok h
        rw [hn]
        exact ⟨parse_addr_lt hA, hle⟩

/-- C9: parsing a CIDR string and displaying the resulting network, then
parsing that canonical `"A.B.C.D/prefix"` text again, yields a structurally
equal network; in particular this holds for every network constructed from
fully-specified 4-segment dotted CIDR text. -/
theorem c9_roundtrip (s : List Char) (n : Ipv4Network)
    (h : from_cidr s = .ok n) :
    from_cidr (Ipv4Network.display n) = .ok n := by
  obtain ⟨ha, hp⟩ := from_cidr_ok h
  obtain ⟨a, p⟩ := n
  have ha' : a < 2 ^ 32 := ha
  have hp' : p ≤ 32 := hp
  obtain ⟨pp, sp⟩ := natChars_prefixLen p (by omega)
  obtain ⟨p0, d0, s0⟩ := natChars_byte _ (Nat.mod_lt (a / 2 ^ 24) (by norm_num))
  obtain ⟨p1, d1, s1⟩ := natChars_byte _ (Nat.mod_lt (a / 2 ^ 16) (by norm_num))
  obtain ⟨p2, d2, s2⟩ := natChars_byte _ (Nat.mod_lt (a / 2 ^ 8) (by norm_num))
  obtain ⟨p3, d3, s3⟩ := natChars_byte _ (Nat.mod_lt a (show (0 : Nat) < 256 by norm_num))
  have hd : Ipv4Network.display ⟨a, p⟩ =
      (natChars (a / 2 ^ 24 % 256) ++ '.' :: natChars (a / 2 ^ 16 % 256) ++ '.' ::
        natChars (a / 2 ^ 8 % 256) ++ '.' :: natChars (a % 256)) ++
        '/' :: natChars p := by
    simp [Ipv4Network.display, List.append_assoc]
  have s0' : '/' ∉ natChars (a / 16777216 % 256) := s0
  have s1' : '/' ∉ natChars (a / 65536 % 256) := s1
  have s2' : '/' ∉ natChars (a / 256 % 256) := s2
  have hno : '/' ∉ (natChars (a / 2 ^ 24 % 256) ++ '.' ::
      natChars (a / 2 ^ 16 % 256) ++ '.' ::
      natChars (a / 2 ^ 8 % 256) ++ '.' :: natChars (a % 256)) := by
    simp [List.mem_append, List.mem_cons, s0', s1', s2', s3]
  have hsplit2 : splitOnChar '/' (Ipv4Network.display ⟨a, p⟩) =
      [natChars (a / 2 ^ 24 % 256) ++ '.' :: natChars (a / 2 ^ 16 % 256) ++ '.' ::
        natChars (a / 2 ^ 8 % 256) ++ '.' :: natChars (a % 256), natChars p] := by
    rw [hd, splitOnChar_append _ hno, splitOnChar_no sp]
  have hparts : cidr_parts (Ipv4Network.display ⟨a, p⟩) =
      .ok (natChars (a / 2 ^ 24 % 256) ++ '.' :: natChars (a / 2 ^ 16 % 256) ++ '.' ::
        natChars (a / 2 ^ 8 % 256) ++ '.' :: natChars (a % 256), natChars p) := by
    unfold cidr_parts
    rw [hsplit2]
  have haddr := display_dotted_parse ha'
  have hb : (IPV4_BITS : Nat) = 32 := rfl
  unfold from_cidr
  simp only [hparts, haddr, hb, pp]
  unfold Ipv4Network.new
  rw [hb, if_neg (by omega)]

/-- Witness for C9 at the CIDR text "10.1.9.32/16". -/
theorem c9_roundtrip_witness :
    from_cidr ['1', '0', '.', '1', '.', '9', '.', '3', '2', '/', '1', '6'] =
      .ok ⟨167840032, 16⟩
    ∧ from_cidr (Ipv4Network.display ⟨167840032, 16⟩) = .ok ⟨167840032, 16⟩ :=
  ⟨by decide,
    c9_roundtrip ['1', '0', '.', '1', '.', '9', '.', '3', '2', '/', '1', '6']
      ⟨167840032, 16⟩ (by decide)⟩

set_option maxRecDepth 8192 in
/-- C8: address parsing splits on `.`; it fails with `InvalidAddr` (carrying a
message) when more than 4 segments are present, and when any segment fails to
parse as a byte in [0,255]; when at most 4 segments are present and every
segment parses, it succeeds with the segment values assembled most-significant
first, missing trailing bytes defaulting to 0 — in particular "10" denotes
10.0.0.0 (167772160). -/
theorem c8_parse_addr (s : List Char) :
    (4 < (splitOnChar '.' s).length →
      ∃ m, parse_addr s = .error (.InvalidAddr m))
    ∧ ((∃ t ∈ splitOnChar '.' s, parseU8 t = none) →
      ∃ m, parse_addr s = .error (.InvalidAddr m))
    ∧ ((splitOnChar '.' s).length ≤ 4 →
      (∀ t ∈ splitOnChar '.' s, parseU8 t ≠ none) →
      parse_addr s =
        .ok (specAssembleBytes ((splitOnChar '.' s).filterMap parseU8)))
    ∧ parse_addr ['1', '0'] = .ok 167772160 := by
  refine ⟨?_, ?_, ?_, by decide⟩
  · intro hlen
    obtain ⟨m, hm⟩ := parseLoop_err_overflow s ((splitOnChar '.' s).map parseU8)
      0 (0, 0, 0, 0) (by omega) (by simpa using hlen)
    exact ⟨m, by unfold parse_addr; rw [hm]⟩
  · rintro ⟨t, ht, hn⟩
    obtain ⟨m, hm⟩ := parseLoop_err_none s ((splitOnChar '.' s).map parseU8)
      0 (0, 0, 0, 0) (List.mem_map.mpr ⟨t, ht, hn⟩)
    exact ⟨m, by unfold parse_addr; rw [hm]⟩
  · intro hlen hall
    rcases hsp : splitOnChar '.' s with _ | ⟨t0, _ | ⟨t1, _ | ⟨t2, _ | ⟨t3, _ | ⟨t4, rest⟩⟩⟩⟩⟩
    · exact absurd hsp (splitOnChar_ne_nil '.' s)
    · obtain ⟨v0, h0⟩ :=
        Option.ne_none_iff_exists'.mp (hall t0 (by rw [hsp]; simp))
      unfold parse_addr
      rw [hsp]
      simp only [List.map_cons, List.map_nil, h0, List.filterMap_cons,
        List.filterMap_nil]
      show Except.ok (v0 * 2 ^ 24 + 0 * 2 ^ 16 + 0 * 2 ^ 8 + 0) =
        .ok (specAssembleBytes [v0])
      have e : specAssembleBytes [v0] =
          (((0 * 256 + v0) * 256 + 0) * 256 + 0) * 256 + 0 := rfl
      rw [e]
      congr 1
      omega
    · obtain ⟨v0, h0⟩ :=
        Option.ne_none_iff_exists'.mp (hall t0 (by rw [hsp]; simp))
      obtain ⟨v1, h1⟩ :=
        Option.ne_none_iff_exists'.mp (hall t1 (by rw [hsp]; simp))
      unfold parse_addr
      rw [hsp]
      simp only [List.map_cons, List.map_nil, h0, h1, List.filterMap_cons,
        List.filterMap_nil]
      show Except.ok (v0 * 2 ^ 24 + v1 * 2 ^ 16 + 0 * 2 ^ 8 + 0) =
        .ok (specAssembleBytes [v0, v1])
      have e : specAssembleBytes [v0, v1] =
          (((0 * 256 + v0) * 256 + v1) * 256 + 0) * 256 + 0 := rfl
      rw [e]
      congr 1
      omega
    · obtain ⟨v0, h0⟩ :=
        Option.ne_none_iff_exists'.mp (hall t0 (by rw [hsp]; simp))
      obtain ⟨v1, h1⟩ :=
        Option.ne_none_iff_exists'.mp (hall t1 (by rw [hsp]; simp))
      obtain ⟨v2, h2⟩ :=
        Option.ne_none_iff_exists'.mp (hall t2 (by rw [hsp]; simp))
      unfold parse_addr
      rw [hsp]
      simp only [List.map_cons, List.map_nil, h0, h1, h2, List.filterMap_cons,
        List.filterMap_nil]
      show Except.ok (v0 * 2 ^ 24 + v1 * 2 ^ 16 + v2 * 2 ^ 8 + 0) =
        .ok (specAssembleBytes [v0, v1, v2])
      have e : specAssembleBytes [v0, v1, v2] =
          (((0 * 256 + v0) * 256 + v1) * 256 + v2) * 256 + 0 := rfl
      rw [e]
      congr 1
      omega
    · obtain ⟨v0, h0⟩ :=
        Option.ne_none_iff_exists'.mp (hall t0 (by rw [hsp]; simp))
      obtain ⟨v1, h1⟩ :=
        Option.ne_none_iff_exists'.mp (hall t1 (by rw [hsp]; simp))
      obtain ⟨v2, h2⟩ :=
        Option.ne_none_iff_exists'.mp (hall t2 (by rw [hsp]; simp))
      obtain ⟨v3, h3⟩ :=
        Option.ne_none_iff_exists'.mp (hall t3 (by rw [hsp]; simp))
      unfold parse_addr
      rw [hsp]
      simp only [List.map_cons, List.map_nil, h0, h1, h2, h3,
        List.filterMap_cons, List.filterMap_nil]
      show Except.ok (v0 * 2 ^ 24 + v1 * 2 ^ 16 + v2 * 2 ^ 8 + v3) =
        .ok (specAssembleBytes [v0, v1, v2, v3])
      have e : specAssembleBytes [v0, v1, v2, v3] =
          (((0 * 256 + v0) * 256 + v1) * 256 + v2) * 256 + v3 := rfl
      rw [e]
      congr 1
      omega
    · rw [hsp] at hlen
      simp only [List.length_cons] at hlen
      omega

/-- Witness for C8: the two-segment address "10.9" parses with the two missing
trailing bytes defaulted to 0. -/
theorem c8_parse_addr_witness :
    ((splitOnChar '.' ['1', '0', '.', '9']).length ≤ 4
      ∧ (∀ t ∈ splitOnChar '.' ['1', '0', '.', '9'], parseU8 t ≠ none))
    ∧ parse_addr ['1', '0', '.', '9'] =
        .ok (specAssembleBytes
          ((splitOnChar '.' ['1', '0', '.', '9']).filterMap parseU8)) :=
  ⟨⟨by decide, by decide⟩,
    (c8_parse_addr ['1', '0', '.', '9']).2.2.1 (by decide) (by decide)⟩

/-- C10: an address string with an empty segment — the empty string, a trailing
dot, or an interior double dot — always fails with `InvalidAddr`: an empty
segment never parses as a byte, so the zero-fill never applies to it. -/
theorem c10_empty_segment (s : List Char) :
    ([] ∈ splitOnChar '.' s → ∃ m, parse_addr s = .error (.InvalidAddr m))
    ∧ (∃ m, parse_addr [] = .error (.InvalidAddr m))
    ∧ (∃ m, parse_addr ['1', '0', '.'] = .error (.InvalidAddr m))
    ∧ (∃ m, parse_addr ['1', '0', '.', '.', '1'] = .error (.InvalidAddr m)) := by
  refine ⟨?_, ⟨_, rfl⟩, ⟨_, rfl⟩, ⟨_, rfl⟩⟩
  intro hmem
  have hnone : none ∈ (splitOnChar '.' s).map parseU8 :=
    List.mem_map.mpr ⟨[], hmem, rfl⟩
  obtain ⟨m, hm⟩ := parseLoop_err_none s _ 0 (0, 0, 0, 0) hnone
  exact ⟨m, by unfold parse_addr; rw [hm]⟩

/-- Witness for C10 at the trailing-dot input "10.". -/
theorem c10_empty_segment_witness :
    [] ∈ splitOnChar '.' ['1', '0', '.']
    ∧ ∃ m, parse_addr ['1', '0', '.'] = .error (.InvalidAddr m) :=
  ⟨by decide, (c10_empty_segment ['1', '0', '.']).1 (by decide)⟩
